import Mathlib

/-!
Shallow embedding of the benchmark engine of the SEO answerability tool
(`backend/benchmark.py`, in its two variants `ai_tool_anayze/backend/benchmark.py`
and `backend/benchmark.py`), together with proofs of the specification claims
about it.

Modelling conventions:
* Python `str` values are modelled as Lean `String` / `List Char`; the
  regex-based helpers (`re.findall`) are modelled by explicit character
  scanners with the same semantics on ASCII input.
* Python `float` arithmetic is modelled by exact rationals (`ℚ`);
  `round(x, 2)` is modelled by `round2` below.  No settled claim depends on
  float rounding noise or on the tie behaviour of `round`.
* Network fetches and the OpenAI completion service are external
  collaborators; they are modelled as explicit oracle parameters, and the
  `OPENAI_API_KEY` environment variable as an `Option String` parameter.
  A missing key makes the completion call raise (`Except.error`), exactly as
  `_call_openai_answer` raises `RuntimeError`.
-/

/-- Characters matched by the token regex `[a-z0-9]+` of `_tokenize`
(applied after `.lower()`). -/
def isAlnumLower (c : Char) : Bool :=
  ('a' ≤ c && c ≤ 'z') || ('0' ≤ c && c ≤ '9')

lemma dropWhile_length_le (p : Char → Bool) (l : List Char) :
    (l.dropWhile p).length ≤ l.length := by
  induction l with
  | nil => simp
  | cons c cs ih =>
    by_cases h : p c
    · rw [List.dropWhile_cons_of_pos h]
      exact Nat.le_succ_of_le ih
    · rw [List.dropWhile_cons_of_neg (by simpa using h)]

/-- Fuel-indexed splitter into maximal runs of characters satisfying `p`;
structural in the fuel so that it evaluates inside the kernel.  With fuel
at least the length of the list it computes the maximal `p`-runs. -/
def runsF (p : Char → Bool) : ℕ → List Char → List (List Char)
  | 0, _ => []
  | _ + 1, [] => []
  | fuel + 1, c :: cs =>
    if p c then (c :: cs.takeWhile p) :: runsF p fuel (cs.dropWhile p)
    else runsF p fuel cs

/-- Maximal runs of characters satisfying `p`; separator characters are
dropped.  This is the common core of `re.findall(r"[a-z0-9]+", ·)`
(`_tokenize`) and of `str.split()` (whitespace splitting in `_chunk_text`). -/
def runsP (p : Char → Bool) (l : List Char) : List (List Char) :=
  runsF p l.length l

lemma runsF_congr (p : Char → Bool) :
    ∀ (n m : ℕ) (l : List Char), l.length ≤ n → l.length ≤ m →
      runsF p n l = runsF p m l := by
  intro n
  induction n with
  | zero =>
    intro m l hn hm
    have : l = [] := List.length_eq_zero.mp (Nat.le_zero.mp hn)
    subst this
    cases m with
    | zero => rfl
    | succ m => rfl
  | succ n ih =>
    intro m l hn hm
    cases l with
    | nil =>
      cases m with
      | zero => rfl
      | succ m => rfl
    | cons c cs =>
      cases m with
      | zero => exact absurd hm (by simp)
      | succ m =>
        simp only [runsF]
        by_cases hc : p c
        · rw [if_pos hc, if_pos hc]
          rw [ih m (cs.dropWhile p)
            (le_trans (dropWhile_length_le p cs) (Nat.lt_succ_iff.mp hn))
            (le_trans (dropWhile_length_le p cs) (Nat.lt_succ_iff.mp hm))]
        · rw [if_neg hc, if_neg hc]
          rw [ih m cs (Nat.lt_succ_iff.mp hn) (Nat.lt_succ_iff.mp hm)]

/-- `_tokenize(text)`: `re.findall(r"[a-z0-9]+", text.lower())`. -/
def pyTokenize (s : String) : List String :=
  (runsP isAlnumLower (s.data.map Char.toLower)).map (fun l => String.mk l)

/-- `_score_overlap(query, chunk)`: sum of per-query-token occurrence counts
in the chunk, divided by `max(1, len(q_tokens))`; `0.0` for a token-free
query. -/
def scoreOverlap (query chunk : String) : ℚ :=
  let qTokens := pyTokenize query
  if qTokens.isEmpty then 0
  else
    ((qTokens.map (fun t => ((pyTokenize chunk).count t : ℚ))).sum) /
      (max 1 qTokens.length : ℕ)

lemma runsP_nil (p : Char → Bool) : runsP p [] = [] := rfl

lemma runsP_cons_pos (p : Char → Bool) (c : Char) (cs : List Char) (h : p c = true) :
    runsP p (c :: cs) = (c :: cs.takeWhile p) :: runsP p (cs.dropWhile p) := by
  show runsF p (cs.length + 1) (c :: cs) = _
  simp only [runsF]
  rw [if_pos h]
  rw [runsF_congr p cs.length (cs.dropWhile p).length (cs.dropWhile p)
    (dropWhile_length_le p cs) le_rfl]
  rfl

lemma runsP_cons_neg (p : Char → Bool) (c : Char) (cs : List Char) (h : p c = false) :
    runsP p (c :: cs) = runsP p cs := by
  show runsF p (cs.length + 1) (c :: cs) = _
  simp only [runsF]
  rw [if_neg (by simp [h])]
  rfl

/-- C6: the relevance score equals the sum over the query's
lowercase-alphanumeric tokens of their occurrence counts in the chunk,
divided by the number of query tokens; a token-free query scores 0; and a
chunk containing none of the query's tokens scores exactly 0 (expressed
contrapositively: either some query token occurs in the chunk, or the score
is 0). -/
theorem score_overlap_spec (query chunk : String) :
    (scoreOverlap query chunk =
      if pyTokenize query = [] then 0
      else ((pyTokenize query).map (fun t => ((pyTokenize chunk).count t : ℚ))).sum /
        ((pyTokenize query).length : ℕ)) ∧
    ((∃ t, t ∈ pyTokenize query ∧ t ∈ pyTokenize chunk) ∨ scoreOverlap query chunk = 0) := by
  constructor
  · by_cases h : pyTokenize query = []
    · simp [scoreOverlap, h]
    · have hlen : 1 ≤ (pyTokenize query).length :=
        List.length_pos.mpr h
      have hmax : max 1 (pyTokenize query).length = (pyTokenize query).length :=
        Nat.max_eq_right hlen
      simp [scoreOverlap, h, List.isEmpty_iff, hmax]
  · by_cases h : ∃ t, t ∈ pyTokenize query ∧ t ∈ pyTokenize chunk
    · exact Or.inl h
    · refine Or.inr ?_
      push_neg at h
      by_cases hq : pyTokenize query = []
      · simp [scoreOverlap, hq]
      · have hzero : ∀ t ∈ pyTokenize query, ((pyTokenize chunk).count t : ℚ) = 0 := by
          intro t ht
          have : (pyTokenize chunk).count t = 0 :=
            List.count_eq_zero.mpr (h t ht)
          simp [this]
        have hsum : ((pyTokenize query).map (fun t => ((pyTokenize chunk).count t : ℚ))).sum = 0 := by
          apply List.sum_eq_zero
          intro x hx
          rcases List.mem_map.mp hx with ⟨t, ht, rfl⟩
          exact hzero t ht
        simp [scoreOverlap, List.isEmpty_iff, hq, hsum]

/-- Non-whitespace predicate: `str.split()` splits on runs of whitespace. -/
def nonWs (c : Char) : Bool := !c.isWhitespace

/-- `text.split()`: the whitespace-token word sequence of a string, as
character lists. -/
def pyWords (l : List Char) : List (List Char) := runsP nonWs l

/-- `sep.join(ws)` at the character level, for a single separator char. -/
def joinSep (s : Char) : List (List Char) → List Char
  | [] => []
  | [w] => w
  | w :: ws => w ++ s :: joinSep s ws

/-- The word-window loop of `_chunk_text` at its default parameters
`chunk_size=800`, `overlap=120`: each window is `words[start:start+800]` and
the next window starts at `end - overlap`, i.e. on the 680-word suffix. -/
def chunkWindows {α : Type} (l : List α) : List (List α) :=
  if l.isEmpty then []
  else l.take 800 :: (if l.length ≤ 800 then [] else chunkWindows (l.drop 680))
termination_by l.length
decreasing_by
  simp only [List.length_drop]
  omega

/-- `_chunk_text(text)` with default size and overlap: split into words,
slice into overlapping word windows, and re-join each window with single
spaces (`" ".join`). -/
def chunkText (s : String) : List String :=
  (chunkWindows (pyWords s.data)).map (fun ws => String.mk (joinSep ' ' ws))

/-- Concatenation of chunk word sequences with the leading 120-word overlap
removed from every chunk after the first. -/
def reconstructWords {α : Type} (cs : List (List α)) : List α :=
  match cs with
  | [] => []
  | c :: rest => c ++ (rest.map (fun w => w.drop 120)).flatten

lemma runsF_mem (p : Char → Bool) :
    ∀ (n : ℕ) (l : List Char), ∀ w ∈ runsF p n l, w ≠ [] ∧ ∀ c ∈ w, p c = true := by
  intro n
  induction n with
  | zero =>
    intro l w hw
    simp [runsF] at hw
  | succ n ih =>
    intro l w hw
    cases l with
    | nil => simp [runsF] at hw
    | cons c cs =>
      simp only [runsF] at hw
      by_cases hc : p c
      · rw [if_pos hc] at hw
        rcases List.mem_cons.mp hw with rfl | hw
        · refine ⟨by simp, ?_⟩
          intro x hx
          rcases List.mem_cons.mp hx with rfl | hx
          · exact hc
          · exact List.mem_takeWhile_imp hx
        · exact ih (cs.dropWhile p) w hw
      · rw [if_neg hc] at hw
        exact ih cs w hw

lemma runsP_mem (p : Char → Bool) (l : List Char) :
    ∀ w ∈ runsP p l, w ≠ [] ∧ ∀ c ∈ w, p c = true :=
  runsF_mem p l.length l

lemma takeWhile_append_stop (p : Char → Bool) (w rest : List Char)
    (hw : ∀ c ∈ w, p c = true) (hr : rest.head?.all (fun c => !p c) = true) :
    (w ++ rest).takeWhile p = w := by
  induction w with
  | nil =>
    cases rest with
    | nil => simp
    | cons x xs =>
      simp only [List.head?] at hr
      simp only [List.nil_append]
      rw [List.takeWhile_cons_of_neg]
      simpa using hr
  | cons a w ih =>
    have ha : p a = true := hw a (by simp)
    simp only [List.cons_append]
    rw [List.takeWhile_cons_of_pos ha]
    rw [ih (fun c hc => hw c (by simp [hc]))]

lemma dropWhile_append_stop (p : Char → Bool) (w rest : List Char)
    (hw : ∀ c ∈ w, p c = true) (hr : rest.head?.all (fun c => !p c) = true) :
    (w ++ rest).dropWhile p = rest := by
  induction w with
  | nil =>
    cases rest with
    | nil => simp
    | cons x xs =>
      simp only [List.head?] at hr
      simp only [List.nil_append]
      rw [List.dropWhile_cons_of_neg]
      simpa using hr
  | cons a w ih =>
    have ha : p a = true := hw a (by simp)
    simp only [List.cons_append]
    rw [List.dropWhile_cons_of_pos ha]
    rw [ih (fun c hc => hw c (by simp [hc]))]

/-- Splitting `sep.join(ws)` back on the separator recovers `ws`, provided
every word is non-empty and free of separator-class characters. -/
lemma runsP_joinSep (p : Char → Bool) (sep : Char) (hsep : p sep = false) :
    ∀ ws : List (List Char), (∀ w ∈ ws, w ≠ [] ∧ ∀ c ∈ w, p c = true) →
      runsP p (joinSep sep ws) = ws := by
  intro ws
  induction ws with
  | nil =>
    intro _
    rfl
  | cons w ws ih =>
    intro hws
    obtain ⟨hne, hall⟩ := hws w (by simp)
    obtain ⟨a, w', rfl⟩ := List.exists_cons_of_ne_nil hne
    have ha : p a = true := hall a (by simp)
    have hw' : ∀ c ∈ w', p c = true := fun c hc => hall c (by simp [hc])
    cases ws with
    | nil =>
      simp only [joinSep]
      rw [runsP_cons_pos p a w' ha]
      rw [List.takeWhile_eq_self_iff.mpr hw', List.dropWhile_eq_nil_iff.mpr hw']
      rfl
    | cons w2 ws2 =>
      have hjoin : joinSep sep ((a :: w') :: w2 :: ws2) =
          a :: (w' ++ sep :: joinSep sep (w2 :: ws2)) := by
        simp [joinSep]
      rw [hjoin, runsP_cons_pos p a _ ha]
      have hstop : (sep :: joinSep sep (w2 :: ws2)).head?.all (fun c => !p c) = true := by
        simp [hsep]
      rw [takeWhile_append_stop p w' _ hw' hstop, dropWhile_append_stop p w' _ hw' hstop]
      rw [runsP_cons_neg p sep _ hsep]
      rw [ih (fun w hw => hws w (by simp [hw]))]

lemma chunkWindows_nil {α : Type} : chunkWindows ([] : List α) = [] := by
  rw [chunkWindows]
  simp

lemma chunkWindows_short {α : Type} (l : List α) (h : l ≠ []) (hle : l.length ≤ 800) :
    chunkWindows l = [l.take 800] := by
  rw [chunkWindows]
  simp [h, hle]

lemma chunkWindows_long {α : Type} (l : List α) (h : ¬ l.length ≤ 800) :
    chunkWindows l = l.take 800 :: chunkWindows (l.drop 680) := by
  rw [chunkWindows]
  have hne : l ≠ [] := by
    intro e
    subst e
    simp at h
  simp [hne, h]

/-- Dropping the 120-word overlap from every window and concatenating
recovers the word sequence past the first 120 words. -/
lemma chunkWindows_drop_flatten {α : Type} :
    ∀ (n : ℕ) (l : List α), l.length ≤ n → 120 ≤ l.length →
      ((chunkWindows l).map (fun w => w.drop 120)).flatten = l.drop 120 := by
  intro n
  induction n with
  | zero =>
    intro l hl h
    omega
  | succ n ih =>
    intro l hl h
    by_cases hle : l.length ≤ 800
    · have hne : l ≠ [] := by
        intro e
        subst e
        simp at h
      rw [chunkWindows_short l hne hle]
      simp [List.take_of_length_le hle]
    · rw [chunkWindows_long l hle]
      simp only [List.map_cons, List.flatten_cons]
      rw [ih (l.drop 680) (by simp only [List.length_drop]; omega)
        (by simp only [List.length_drop]; omega)]
      rw [List.drop_take, List.drop_drop]
      have h800 : 120 + 680 = 800 := by norm_num
      rw [h800]
      have hswap : (l.drop 120).take 680 ++ l.drop 800 =
          (l.drop 120).take 680 ++ (l.drop 120).drop 680 := by
        rw [List.drop_drop]
      rw [hswap, List.take_append_drop]

/-- The chunk windows, with the leading overlap removed from every window
after the first, reconstruct the original word sequence. -/
lemma reconstruct_chunkWindows {α : Type} (l : List α) :
    reconstructWords (chunkWindows l) = l := by
  by_cases hnil : l = []
  · subst hnil
    rw [chunkWindows_nil]
    rfl
  · by_cases hle : l.length ≤ 800
    · rw [chunkWindows_short l hnil hle]
      simp [reconstructWords, List.take_of_length_le hle]
    · rw [chunkWindows_long l hle]
      show l.take 800 ++ ((chunkWindows (l.drop 680)).map (fun w => w.drop 120)).flatten = l
      rw [chunkWindows_drop_flatten (l.drop 680).length (l.drop 680) le_rfl
        (by simp only [List.length_drop]; omega)]
      rw [List.drop_drop]
      have h800 : 120 + 680 = 800 := by norm_num
      rw [h800, List.take_append_drop]

lemma chunkWindows_mem_subset {α : Type} :
    ∀ (n : ℕ) (l : List α), l.length ≤ n →
      ∀ c ∈ chunkWindows l, ∀ x ∈ c, x ∈ l := by
  intro n
  induction n with
  | zero =>
    intro l hl c hc
    have : l = [] := List.length_eq_zero.mp (Nat.le_zero.mp hl)
    subst this
    rw [chunkWindows_nil] at hc
    simp at hc
  | succ n ih =>
    intro l hl c hc x hx
    by_cases hnil : l = []
    · subst hnil
      rw [chunkWindows_nil] at hc
      simp at hc
    · by_cases hle : l.length ≤ 800
      · rw [chunkWindows_short l hnil hle] at hc
        rcases List.mem_singleton.mp hc with rfl
        exact List.take_subset 800 l hx
      · rw [chunkWindows_long l hle] at hc
        rcases List.mem_cons.mp hc with rfl | hc
        · exact List.take_subset 800 l hx
        · have := ih (l.drop 680) (by simp only [List.length_drop]; omega) c hc x hx
          exact List.drop_subset 680 l this

/-- C8: chunking a text with `size=800`, `overlap=120` and concatenating
the chunks' word sequences with the leading 120-word overlap removed from
every chunk after the first reconstructs the text's whitespace-token word
sequence exactly. -/
theorem chunk_text_reconstructs (T : String) :
    reconstructWords ((chunkText T).map (fun c => pyWords c.data)) = pyWords T.data := by
  unfold chunkText
  rw [List.map_map]
  have hcongr : ∀ ws ∈ chunkWindows (pyWords T.data),
      ((fun c => pyWords c.data) ∘ fun ws => String.mk (joinSep ' ' ws)) ws = id ws := by
    intro ws hws
    show pyWords (String.mk (joinSep ' ' ws)).data = ws
    have hdata : (String.mk (joinSep ' ' ws)).data = joinSep ' ' ws := rfl
    rw [hdata]
    apply runsP_joinSep nonWs ' ' (by decide)
    intro w hw
    exact runsP_mem nonWs T.data w
      (chunkWindows_mem_subset (pyWords T.data).length (pyWords T.data) le_rfl ws hws w hw)
  rw [List.map_congr_left hcongr, List.map_id]
  exact reconstruct_chunkWindows (pyWords T.data)

/-- One step of a stable descending insertion by score: the new element is
placed before the first element whose score is `≤` its own.  Python's
`list.sort(key=lambda x: x[2], reverse=True)` in `_select_top_chunks` is a
stable descending sort, and a stable descending sort of a given list is
unique, so this insertion sort computes the same list. -/
def insertByScore (x : String × String × ℚ) :
    List (String × String × ℚ) → List (String × String × ℚ)
  | [] => [x]
  | y :: l => if y.2.2 ≤ x.2.2 then x :: y :: l else y :: insertByScore x l

/-- `scored.sort(key=lambda x: x[2], reverse=True)`. -/
def sortByScoreDesc (l : List (String × String × ℚ)) : List (String × String × ℚ) :=
  l.foldr insertByScore []

/-- `_select_top_chunks(query, chunks, top_k)`: score every `(url, chunk)`
pair against the query, sort descending by score (stably), and keep the
first `top_k`. -/
def selectTopChunks (query : String) (chunks : List (String × String)) (topK : ℕ) :
    List (String × String × ℚ) :=
  (sortByScoreDesc (chunks.map (fun uc => (uc.1, uc.2, scoreOverlap query uc.2)))).take topK

lemma length_insertByScore (x : String × String × ℚ) (l : List (String × String × ℚ)) :
    (insertByScore x l).length = l.length + 1 := by
  induction l with
  | nil => rfl
  | cons y l ih =>
    by_cases h : y.2.2 ≤ x.2.2
    · simp [insertByScore, h]
    · simp [insertByScore, h, ih]

lemma length_sortByScoreDesc (l : List (String × String × ℚ)) :
    (sortByScoreDesc l).length = l.length := by
  induction l with
  | nil => rfl
  | cons x l ih =>
    show (insertByScore x (sortByScoreDesc l)).length = l.length + 1
    rw [length_insertByScore, ih]

lemma mem_insertByScore {z x : String × String × ℚ} {l : List (String × String × ℚ)} :
    z ∈ insertByScore x l ↔ z = x ∨ z ∈ l := by
  induction l with
  | nil => simp [insertByScore]
  | cons y l ih =>
    by_cases h : y.2.2 ≤ x.2.2
    · simp only [insertByScore, if_pos h, List.mem_cons]
    · simp only [insertByScore, if_neg h, List.mem_cons, ih]
      tauto

lemma pairwise_insertByScore (x : String × String × ℚ) (l : List (String × String × ℚ))
    (h : List.Pairwise (fun a b => b.2.2 ≤ a.2.2) l) :
    List.Pairwise (fun a b => b.2.2 ≤ a.2.2) (insertByScore x l) := by
  induction l with
  | nil => simp [insertByScore]
  | cons y l ih =>
    rcases List.pairwise_cons.mp h with ⟨hy, hl⟩
    by_cases hle : y.2.2 ≤ x.2.2
    · simp only [insertByScore, if_pos hle]
      refine List.Pairwise.cons ?_ h
      intro z hz
      rcases List.mem_cons.mp hz with rfl | hz
      · exact hle
      · exact le_trans (hy z hz) hle
    · simp only [insertByScore, if_neg hle]
      refine List.Pairwise.cons ?_ (ih hl)
      intro z hz
      rcases mem_insertByScore.mp hz with rfl | hz
      · exact le_of_lt (lt_of_not_le hle)
      · exact hy z hz

lemma pairwise_sortByScoreDesc (l : List (String × String × ℚ)) :
    List.Pairwise (fun a b => b.2.2 ≤ a.2.2) (sortByScoreDesc l) := by
  induction l with
  | nil => simp [sortByScoreDesc]
  | cons x l ih => exact pairwise_insertByScore x (sortByScoreDesc l) ih

lemma filter_insertByScore_eq (x : String × String × ℚ) (l : List (String × String × ℚ))
    (s : ℚ) (hx : x.2.2 = s) :
    (insertByScore x l).filter (fun e => e.2.2 == s) =
      x :: l.filter (fun e => e.2.2 == s) := by
  have hxb : (x.2.2 == s) = true := by simp [hx]
  induction l with
  | nil => simp [insertByScore, hxb]
  | cons y l ih =>
    by_cases hle : y.2.2 ≤ x.2.2
    · simp only [insertByScore, if_pos hle]
      simp [List.filter_cons, hxb]
    · have hy : (y.2.2 == s) = false := by
        have hlt : s < y.2.2 := hx ▸ lt_of_not_le hle
        simp [ne_of_gt hlt]
      simp only [insertByScore, if_neg hle]
      simp [List.filter_cons, hy, ih]

lemma filter_insertByScore_ne (x : String × String × ℚ) (l : List (String × String × ℚ))
    (s : ℚ) (hx : x.2.2 ≠ s) :
    (insertByScore x l).filter (fun e => e.2.2 == s) =
      l.filter (fun e => e.2.2 == s) := by
  have hxb : (x.2.2 == s) = false := by simp [hx]
  induction l with
  | nil => simp [insertByScore, hxb]
  | cons y l ih =>
    by_cases hle : y.2.2 ≤ x.2.2
    · simp only [insertByScore, if_pos hle]
      simp [List.filter_cons, hxb]
    · simp only [insertByScore, if_neg hle]
      simp [List.filter_cons, ih]

/-- Stability of the descending sort: for each score value, the sorted
list's elements with that score are exactly the input's elements with that
score, in the same relative order. -/
lemma filter_sortByScoreDesc (l : List (String × String × ℚ)) (s : ℚ) :
    (sortByScoreDesc l).filter (fun e => e.2.2 == s) =
      l.filter (fun e => e.2.2 == s) := by
  induction l with
  | nil => rfl
  | cons x l ih =>
    show (insertByScore x (sortByScoreDesc l)).filter (fun e => e.2.2 == s) = _
    by_cases hx : x.2.2 = s
    · rw [filter_insertByScore_eq x _ s hx, ih]
      have hxb : (x.2.2 == s) = true := by simp [hx]
      simp [List.filter_cons, hxb]
    · rw [filter_insertByScore_ne x _ s hx, ih]
      have hxb : (x.2.2 == s) = false := by simp [hx]
      simp [List.filter_cons, hxb]

/-- C5: `_select_top_chunks` returns exactly `min(top_k, len(chunks))`
scored chunks, ordered by non-increasing score, and the underlying
descending sort is stable: for every score value, the chunks carrying that
score appear in their original input order. -/
theorem select_top_chunks_spec (query : String) (chunks : List (String × String)) (k : ℕ) :
    (selectTopChunks query chunks k).length = min k chunks.length ∧
    List.Pairwise (fun a b => b.2.2 ≤ a.2.2) (selectTopChunks query chunks k) ∧
    ∀ s : ℚ,
      (sortByScoreDesc (chunks.map (fun uc => (uc.1, uc.2, scoreOverlap query uc.2)))).filter
          (fun e => e.2.2 == s) =
        (chunks.map (fun uc => (uc.1, uc.2, scoreOverlap query uc.2))).filter
          (fun e => e.2.2 == s) := by
  refine ⟨?_, ?_, ?_⟩
  · show ((sortByScoreDesc _).take k).length = _
    rw [List.length_take, length_sortByScoreDesc, List.length_map]
  · exact List.Pairwise.sublist (List.take_sublist k _) (pairwise_sortByScoreDesc _)
  · intro s
    exact filter_sortByScoreDesc _ s

/-- State machine equivalent of `re.findall(r"\[(\d+)\]", answer)`: scan the
text left to right, matching bracketed runs of decimal digits.  The state is
`none` outside a candidate match, `some none` directly after a `[`, and
`some (some n)` after `[` followed by digits of value `n`. -/
def scanGo : Option (Option ℕ) → List Char → List ℕ
  | _, [] => []
  | st, c :: cs =>
    if c = '[' then scanGo (some none) cs
    else
      match st with
      | none => scanGo none cs
      | some d =>
        if c.isDigit then scanGo (some (some ((d.getD 0) * 10 + (c.toNat - 48)))) cs
        else if c = ']' then
          match d with
          | some n => n :: scanGo none cs
          | none => scanGo none cs
        else scanGo none cs

/-- All `[n]` markers of the answer text, in order of occurrence. -/
def scanMarkers (l : List Char) : List ℕ := scanGo none l

/-- Lexicographic comparison of character lists by code point; Python's
`sorted` on the cited URL strings orders them this way. -/
def charListLt : List Char → List Char → Bool
  | [], [] => false
  | [], _ :: _ => true
  | _ :: _, [] => false
  | a :: as, b :: bs => if a < b then true else if b < a then false else charListLt as bs

/-- Insertion into a strictly sorted list that skips duplicates; folding it
over a list models `sorted(set(...))`. -/
def insertSortedUrl (u : String) : List String → List String
  | [] => [u]
  | v :: l =>
    if charListLt u.data v.data then u :: v :: l
    else if u = v then v :: l
    else v :: insertSortedUrl u l

/-- `sorted(set(cited))`. -/
def sortedUniqueUrls (l : List String) : List String := l.foldr insertSortedUrl []

/-- `_extract_citations(answer, sources)`: collect all `[n]` markers from
the answer, map each `n` (1-indexed) to the n-th source URL, silently drop
out-of-range indices, deduplicate, sort by URL, and tag each citation with
section `"page"`. -/
def extractCitations (answer : String) (sources : List String) : List (String × String) :=
  (sortedUniqueUrls
      ((scanMarkers answer.data).filterMap
        (fun n => if 1 ≤ n then sources[n - 1]? else none))).map
    (fun u => (u, "page"))

lemma charListLt_cons (a0 b0 : Char) (as bs : List Char) :
    charListLt (a0 :: as) (b0 :: bs) = true ↔
      a0 < b0 ∨ (a0 = b0 ∧ charListLt as bs = true) := by
  simp only [charListLt]
  rcases lt_trichotomy a0 b0 with h | h | h
  · simp [h]
  · subst h
    simp [lt_irrefl a0]
  · have h1 : ¬ a0 < b0 := not_lt.mpr (le_of_lt h)
    simp [h1, h, ne_of_gt h]

lemma charListLt_trans :
    ∀ a b c : List Char, charListLt a b = true → charListLt b c = true →
      charListLt a c = true := by
  intro a
  induction a with
  | nil =>
    intro b c hab hbc
    cases b with
    | nil => simp [charListLt] at hab
    | cons b0 bs =>
      cases c with
      | nil => simp [charListLt] at hbc
      | cons c0 cs => simp [charListLt]
  | cons a0 as ih =>
    intro b c hab hbc
    cases b with
    | nil => simp [charListLt] at hab
    | cons b0 bs =>
      cases c with
      | nil => simp [charListLt] at hbc
      | cons c0 cs =>
        rw [charListLt_cons] at hab hbc ⊢
        rcases hab with h1 | ⟨rfl, h1⟩
        · rcases hbc with h2 | ⟨rfl, h2⟩
          · exact Or.inl (lt_trans h1 h2)
          · exact Or.inl h1
        · rcases hbc with h2 | ⟨rfl, h2⟩
          · exact Or.inl h2
          · exact Or.inr ⟨rfl, ih bs cs h1 h2⟩

lemma charListLt_total :
    ∀ a b : List Char, charListLt a b = true ∨ a = b ∨ charListLt b a = true := by
  intro a
  induction a with
  | nil =>
    intro b
    cases b with
    | nil => exact Or.inr (Or.inl rfl)
    | cons b0 bs => exact Or.inl (by simp [charListLt])
  | cons a0 as ih =>
    intro b
    cases b with
    | nil => exact Or.inr (Or.inr (by simp [charListLt]))
    | cons b0 bs =>
      rcases lt_trichotomy a0 b0 with h | h | h
      · exact Or.inl ((charListLt_cons a0 b0 as bs).mpr (Or.inl h))
      · subst h
        rcases ih bs with h2 | h2 | h2
        · exact Or.inl ((charListLt_cons a0 a0 as bs).mpr (Or.inr ⟨rfl, h2⟩))
        · exact Or.inr (Or.inl (by rw [h2]))
        · exact Or.inr (Or.inr ((charListLt_cons a0 a0 bs as).mpr (Or.inr ⟨rfl, h2⟩)))
      · exact Or.inr (Or.inr ((charListLt_cons b0 a0 bs as).mpr (Or.inl h)))

lemma stringDataEq {u v : String} (h : u.data = v.data) : u = v := by
  cases u with
  | mk du =>
    cases v with
    | mk dv =>
      have h2 : du = dv := h
      rw [h2]

lemma mem_insertSortedUrl {z u : String} {l : List String} :
    z ∈ insertSortedUrl u l ↔ z = u ∨ z ∈ l := by
  induction l with
  | nil => simp [insertSortedUrl]
  | cons v l ih =>
    by_cases h1 : charListLt u.data v.data = true
    · simp only [insertSortedUrl, if_pos h1, List.mem_cons]
    · by_cases h2 : u = v
      · subst h2
        simp only [insertSortedUrl, if_neg h1, if_true]
        simp only [List.mem_cons]
        tauto
      · simp only [insertSortedUrl, if_neg h1, if_neg h2, List.mem_cons, ih]
        tauto

lemma pairwise_insertSortedUrl (u : String) (l : List String)
    (h : List.Pairwise (fun a b => charListLt a.data b.data = true) l) :
    List.Pairwise (fun a b => charListLt a.data b.data = true) (insertSortedUrl u l) := by
  induction l with
  | nil => simp [insertSortedUrl]
  | cons v l ih =>
    rcases List.pairwise_cons.mp h with ⟨hv, hl⟩
    by_cases h1 : charListLt u.data v.data = true
    · simp only [insertSortedUrl, if_pos h1]
      refine List.Pairwise.cons ?_ h
      intro z hz
      rcases List.mem_cons.mp hz with rfl | hz
      · exact h1
      · exact charListLt_trans _ _ _ h1 (hv z hz)
    · by_cases h2 : u = v
      · simp only [insertSortedUrl, if_neg h1, if_pos h2]
        exact h
      · have h3 : charListLt v.data u.data = true := by
          rcases charListLt_total u.data v.data with hh | hh | hh
          · exact absurd hh h1
          · exact absurd (stringDataEq hh) h2
          · exact hh
        simp only [insertSortedUrl, if_neg h1, if_neg h2]
        refine List.Pairwise.cons ?_ (ih hl)
        intro z hz
        rcases mem_insertSortedUrl.mp hz with rfl | hz
        · exact h3
        · exact hv z hz

lemma pairwise_sortedUniqueUrls (l : List String) :
    List.Pairwise (fun a b => charListLt a.data b.data = true) (sortedUniqueUrls l) := by
  induction l with
  | nil => simp [sortedUniqueUrls]
  | cons u l ih => exact pairwise_insertSortedUrl u _ ih

lemma mem_sortedUniqueUrls {z : String} {l : List String} :
    z ∈ sortedUniqueUrls l ↔ z ∈ l := by
  induction l with
  | nil => simp [sortedUniqueUrls]
  | cons u l ih =>
    show z ∈ insertSortedUrl u (sortedUniqueUrls l) ↔ _
    rw [mem_insertSortedUrl, ih]
    simp

/-- C7: citation extraction collects all `[n]` markers of the answer, maps
each `n` 1-indexed to the n-th source URL, silently ignores any `n` outside
`1..len(sources)`, deduplicates by URL, and returns the citations sorted
lexicographically by URL, each with section `"page"`; in particular on
answer `"X [1] and Y [3]."` with two sources it returns only the first
source. -/
theorem extract_citations_spec (answer : String) (sources : List String) :
    ((extractCitations answer sources).map Prod.snd).all (fun sec => sec == "page") = true ∧
    List.Pairwise (fun a b => charListLt a.1.data b.1.data = true)
      (extractCitations answer sources) ∧
    (∀ u : String, (u, "page") ∈ extractCitations answer sources ↔
      ∃ n, n ∈ scanMarkers answer.data ∧ 1 ≤ n ∧ sources[n - 1]? = some u) ∧
    extractCitations "X [1] and Y [3]." ["a", "b"] = [("a", "page")] := by
  refine ⟨?_, ?_, ?_, by decide⟩
  · rw [List.all_eq_true]
    intro sec hsec
    rcases List.mem_map.mp hsec with ⟨e, he, rfl⟩
    rcases List.mem_map.mp he with ⟨w, hw, rfl⟩
    simp
  · exact List.Pairwise.map _ (fun a b hab => hab) (pairwise_sortedUniqueUrls _)
  · intro u
    constructor
    · intro h
      rcases List.mem_map.mp h with ⟨w, hw, heq⟩
      have hwu : w = u := congrArg Prod.fst heq
      subst hwu
      rcases List.mem_filterMap.mp (mem_sortedUniqueUrls.mp hw) with ⟨n, hn, hval⟩
      by_cases h1 : 1 ≤ n
      · rw [if_pos h1] at hval
        exact ⟨n, hn, h1, hval⟩
      · rw [if_neg h1] at hval
        simp at hval
    · rintro ⟨n, hn, h1, hval⟩
      apply List.mem_map.mpr
      refine ⟨u, ?_, rfl⟩
      apply mem_sortedUniqueUrls.mpr
      apply List.mem_filterMap.mpr
      exact ⟨n, hn, by rw [if_pos h1]; exact hval⟩

/-- `round(x, 2)`: two-decimal rounding on the exact rational model of
Python's float arithmetic.  Python rounds ties of binary floats to even; no
settled claim depends on a tie, so nearest-integer rounding of `100 * x` is
used. -/
def round2 (x : ℚ) : ℚ := (round (x * 100) : ℤ) / 100

/-- Substring test, used for `"NOT FOUND" in answer.upper()`. -/
def containsSub (pat l : List Char) : Bool :=
  l.tails.any (fun t => pat.isPrefixOf t)

/-- `answer.upper()`. -/
def upperChars (s : String) : List Char := s.data.map Char.toUpper

/-- `_build_context(top_chunks)`: the numbered source blocks joined by
blank lines, and the parallel list of source URLs. -/
def buildContext (topChunks : List (String × String × ℚ)) : String × List String :=
  (String.intercalate "\n\n"
      ((List.enumFrom 1 topChunks).map
        (fun ic => "[" ++ Nat.repr ic.1 ++ "] " ++ ic.2.1 ++ "\n" ++ ic.2.2.1)),
    topChunks.map (fun c => c.1))

/-- `_call_openai_answer`: raises `RuntimeError` when `OPENAI_API_KEY` is
unset, otherwise delegates to the external completion service (the oracle);
the oracle's value stands for the stripped message content. -/
def callOpenaiAnswer (apiKey : Option String) (oracle : String → String → String)
    (query context : String) : Except Unit String :=
  match apiKey with
  | none => .error ()
  | some _ => .ok (oracle query context)

/-- `_build_answer(query, top_chunks, model)`, instrumented with the number
of completion-service calls performed (`0` on the gated path, `1`
otherwise). -/
def buildAnswer (apiKey : Option String) (oracle : String → String → String)
    (query : String) (topChunks : List (String × String × ℚ)) :
    Except Unit ((String × List (String × String) × Bool) × ℕ) :=
  match topChunks with
  | [] => .ok (("NOT FOUND", [], false), 0)
  | t :: _ =>
    if t.2.2 < 1/5 then .ok (("NOT FOUND", [], false), 0)
    else
      let cs := buildContext topChunks
      match callOpenaiAnswer apiKey oracle query cs.1 with
      | .error e => .error e
      | .ok answer =>
        let isAnswerable := !containsSub "NOT FOUND".data (upperChars answer)
        let citations := extractCitations answer cs.2
        .ok ((answer, citations, isAnswerable), 1)

lemma buildAnswer_gate (apiKey : Option String) (oracle : String → String → String)
    (query : String) (topChunks : List (String × String × ℚ))
    (h : topChunks = [] ∨ ∀ c ∈ topChunks, c.2.2 < 1/5) :
    buildAnswer apiKey oracle query topChunks = .ok (("NOT FOUND", [], false), 0) := by
  rcases h with rfl | h
  · rfl
  · cases topChunks with
    | nil => rfl
    | cons t ts =>
      have ht : t.2.2 < 1/5 := h t (by simp)
      simp only [buildAnswer]
      rw [if_pos ht]

/-- C1: if the scored top-chunk list is empty or its highest score is
strictly below the 0.2 relevance threshold, `_build_answer` returns exactly
`("NOT FOUND", [], False)` and performs no completion-service call (call
count 0), for every api-key state and every behaviour of the completion
service. -/
theorem build_answer_gate_spec (apiKey : Option String)
    (oracle : String → String → String) (query : String)
    (topChunks : List (String × String × ℚ))
    (h : topChunks = [] ∨ ∀ c ∈ topChunks, c.2.2 < 1/5) :
    buildAnswer apiKey oracle query topChunks = .ok (("NOT FOUND", [], false), 0) :=
  buildAnswer_gate apiKey oracle query topChunks h

/-- Witness for C1: the gate fires on a concrete below-threshold list. -/
theorem build_answer_gate_spec_witness :
    (∀ c ∈ [("u", "c", (1 : ℚ)/10)], c.2.2 < 1/5) ∧
    buildAnswer (some "k") (fun _ _ => "hello") "q" [("u", "c", (1 : ℚ)/10)] =
      .ok (("NOT FOUND", [], false), 0) :=
  ⟨by
     intro c hc
     rw [List.mem_singleton] at hc
     subst hc
     norm_num,
   build_answer_gate_spec (some "k") (fun _ _ => "hello") "q"
     [("u", "c", (1 : ℚ)/10)]
     (Or.inr (by
       intro c hc
       rw [List.mem_singleton] at hc
       subst hc
       norm_num))⟩

/-- A crawled page (`PageContent` dataclass). -/
structure PageContent where
  url : String
  title : String
  text : String
deriving DecidableEq

/-- The `metrics` sub-dict of one query result. -/
structure QueryMetrics where
  answerable : Bool
  citationOk : Bool
  hallucination : Bool
  completeness : ℚ
deriving DecidableEq

/-- One entry of `query_results`. -/
structure QueryResult where
  query : String
  answer : String
  status : String
  citations : List (String × String)
  metrics : QueryMetrics
deriving DecidableEq

/-- The `overall_scores` dict. -/
structure OverallScores where
  answerabilityRate : ℚ
  citationCoverage : ℚ
  hallucinationRate : ℚ
  completeness : ℚ
deriving DecidableEq

/-- The report dict returned by `run_answerability_benchmark`. -/
structure BenchmarkReport where
  siteUrl : String
  crawledPages : ℕ
  indexedChunks : ℕ
  queriesRun : ℕ
  overallScores : OverallScores
  queryResults : List QueryResult
  missingTopics : List String
deriving DecidableEq

/-- `_completeness_score(query, answer)`:
`|set(q_tokens) ∩ set(a_tokens)| / |set(q_tokens)|`, `0.0` for a token-free
query. -/
def completenessScore (query answer : String) : ℚ :=
  let qTokens := (pyTokenize query).dedup
  if qTokens.isEmpty then 0
  else ((qTokens.filter (fun t => t ∈ pyTokenize answer)).length : ℚ) / qTokens.length

/-- The chunk index of `run_answerability_benchmark`: every page's chunks
tagged with the source page URL. -/
def buildChunks (pages : List PageContent) : List (String × String) :=
  pages.flatMap (fun p => (chunkText p.text).map (fun c => (p.url, c)))

/-- One iteration of the per-question loop of `run_answerability_benchmark`
(ai_tool_anayze variant): top-3 retrieval, gated synthesis, completeness
scoring and `QueryResult` assembly.  The second component carries the
unrounded completeness score accumulated into `completeness_scores`. -/
def processQuery (apiKey : Option String) (oracle : String → String → String)
    (chunks : List (String × String)) (query : String) :
    Except Unit (QueryResult × ℚ) :=
  match buildAnswer apiKey oracle query (selectTopChunks query chunks 3) with
  | .error e => .error e
  | .ok (acb, _calls) =>
    let completeness := completenessScore query acb.1
    .ok ({ query := query, answer := acb.1,
           status := if acb.2.2 then "answered" else "not_found",
           citations := acb.2.1,
           metrics := { answerable := acb.2.2, citationOk := !acb.2.1.isEmpty,
                        hallucination := false, completeness := round2 completeness } },
         completeness)

/-- The per-question loop, in input order; an uncaught `RuntimeError` from
the completion call aborts the whole run. -/
def processQueries (apiKey : Option String) (oracle : String → String → String)
    (chunks : List (String × String)) : List String → Except Unit (List (QueryResult × ℚ))
  | [] => .ok []
  | q :: qs =>
    match processQuery apiKey oracle chunks q with
    | .error e => .error e
    | .ok row =>
      match processQueries apiKey oracle chunks qs with
      | .error e => .error e
      | .ok rows => .ok (row :: rows)

/-- The aggregation tail of `run_answerability_benchmark`: counters over the
per-query rows, overall scores (arithmetic means over `max(1, len(queries))`
rounded to two decimals), `missing_topics`, and report assembly. -/
def mkReport (siteUrl : String) (pages : List PageContent) (queries : List String)
    (rows : List (QueryResult × ℚ)) : BenchmarkReport :=
  let results := rows.map (fun r => r.1)
  let answerable := results.countP (fun r => r.metrics.answerable)
  let citationOk := results.countP (fun r => r.metrics.answerable && !r.citations.isEmpty)
  let completenessScores := rows.map (fun r => r.2)
  let missingTopics := results.filterMap
    (fun r => if r.metrics.answerable then none else some r.query)
  let total : ℕ := max 1 queries.length
  { siteUrl := siteUrl
    crawledPages := pages.length
    indexedChunks := (buildChunks pages).length
    queriesRun := queries.length
    overallScores :=
      { answerabilityRate := round2 ((answerable : ℚ) / total)
        citationCoverage := round2 ((citationOk : ℚ) / total)
        hallucinationRate := round2 ((0 : ℚ) / total)
        completeness :=
          if completenessScores.isEmpty then 0
          else round2 (completenessScores.sum / total) }
    queryResults := results
    missingTopics := missingTopics }

/-- `run_answerability_benchmark(site_url, queries, model)` of the
ai_tool_anayze (per-question) variant, with the crawl result passed
explicitly (the crawler is modelled separately), the completion service as
an oracle, and the `OPENAI_API_KEY` state as a parameter.  An uncaught
`RuntimeError` from `_call_openai_answer` propagates as `Except.error`. -/
def runBenchmark (apiKey : Option String) (oracle : String → String → String)
    (siteUrl : String) (pages : List PageContent) (queries : List String) :
    Except Unit BenchmarkReport :=
  match processQueries apiKey oracle (buildChunks pages) queries with
  | .error e => .error e
  | .ok rows => .ok (mkReport siteUrl pages queries rows)

lemma completenessScore_nonneg (query answer : String) :
    0 ≤ completenessScore query answer := by
  unfold completenessScore
  by_cases h : ((pyTokenize query).dedup).isEmpty
  · simp [h]
  · simp only [h, if_false]
    positivity

lemma completenessScore_le_one (query answer : String) :
    completenessScore query answer ≤ 1 := by
  unfold completenessScore
  by_cases h : ((pyTokenize query).dedup).isEmpty
  · simp [h]
  · simp only [h, Bool.false_eq_true, if_false]
    have hlen : 0 < ((pyTokenize query).dedup).length := by
      cases hd : (pyTokenize query).dedup with
      | nil => rw [hd] at h; simp at h
      | cons a l => simp [hd]
    rw [div_le_one (by exact_mod_cast hlen)]
    exact_mod_cast List.length_filter_le _ _

lemma round2_nonneg {x : ℚ} (hx : 0 ≤ x) : 0 ≤ round2 x := by
  unfold round2
  apply div_nonneg _ (by norm_num)
  have h0 : (0 : ℤ) ≤ round (x * 100) := by
    rw [round_eq]
    apply Int.le_floor.mpr
    push_cast
    linarith
  exact_mod_cast h0

lemma round2_le_one {x : ℚ} (hx : x ≤ 1) : round2 x ≤ 1 := by
  unfold round2
  rw [div_le_one (by norm_num)]
  have h1 : round (x * 100) ≤ 100 := by
    rw [round_eq]
    have hlt : ⌊x * 100 + 1/2⌋ < 101 := by
      apply Int.floor_lt.mpr
      push_cast
      linarith
    omega
  exact_mod_cast h1

lemma round2_zero : round2 0 = 0 := by
  simp [round2]

lemma processQuery_ok_props {apiKey : Option String} {oracle : String → String → String}
    {chunks : List (String × String)} {query : String} {r : QueryResult} {c : ℚ}
    (h : processQuery apiKey oracle chunks query = .ok (r, c)) :
    r.query = query ∧
    r.status = (if r.metrics.answerable then "answered" else "not_found") ∧
    r.metrics.completeness = round2 c ∧ 0 ≤ c ∧ c ≤ 1 := by
  unfold processQuery at h
  cases hb : buildAnswer apiKey oracle query (selectTopChunks query chunks 3) with
  | error e =>
    rw [hb] at h
    exact absurd h (by simp)
  | ok val =>
    obtain ⟨acb, calls⟩ := val
    rw [hb] at h
    simp only [Except.ok.injEq, Prod.mk.injEq] at h
    obtain ⟨hr, hc⟩ := h
    subst hc
    subst hr
    refine ⟨rfl, rfl, rfl, completenessScore_nonneg _ _, completenessScore_le_one _ _⟩

lemma processQueries_ok_props {apiKey : Option String} {oracle : String → String → String}
    {chunks : List (String × String)} :
    ∀ {queries : List String} {rows : List (QueryResult × ℚ)},
      processQueries apiKey oracle chunks queries = .ok rows →
      rows.map (fun r => r.1.query) = queries ∧
      ∀ row ∈ rows,
        row.1.status = (if row.1.metrics.answerable then "answered" else "not_found") ∧
        row.1.metrics.completeness = round2 row.2 ∧ 0 ≤ row.2 ∧ row.2 ≤ 1 := by
  intro queries
  induction queries with
  | nil =>
    intro rows h
    simp only [processQueries, Except.ok.injEq] at h
    subst h
    exact ⟨rfl, by simp⟩
  | cons q qs ih =>
    intro rows h
    simp only [processQueries] at h
    cases h1 : processQuery apiKey oracle chunks q with
    | error e =>
      rw [h1] at h
      exact absurd h (by simp)
    | ok row =>
      rw [h1] at h
      cases h2 : processQueries apiKey oracle chunks qs with
      | error e =>
        rw [h2] at h
        exact absurd h (by simp)
      | ok rows' =>
        rw [h2] at h
        simp only [Except.ok.injEq] at h
        subst h
        obtain ⟨hq, hprops⟩ := ih h2
        obtain ⟨hp1, hp2, hp3, hp4, hp5⟩ := processQuery_ok_props h1
        constructor
        · simp [hq, hp1]
        · intro x hx
          rcases List.mem_cons.mp hx with rfl | hx
          · exact ⟨hp2, hp3, hp4, hp5⟩
          · exact hprops x hx

lemma missing_filterMap_eq (results : List QueryResult)
    (h : ∀ r ∈ results,
      r.status = (if r.metrics.answerable then "answered" else "not_found")) :
    results.filterMap (fun r => if r.metrics.answerable then none else some r.query) =
      (results.filter (fun r => r.status == "not_found")).map (fun r => r.query) := by
  induction results with
  | nil => rfl
  | cons r rs ih =>
    have hr := h r (by simp)
    have htail := ih (fun x hx => h x (by simp [hx]))
    by_cases ha : r.metrics.answerable
    · rw [if_pos ha] at hr
      have hne : (r.status == "not_found") = false := by
        rw [hr]
        decide
      simp only [List.filterMap_cons, if_pos ha, List.filter_cons, hne]
      simpa using htail
    · rw [if_neg ha] at hr
      have heq : (r.status == "not_found") = true := by
        rw [hr]
        decide
      simp only [List.filterMap_cons, if_neg ha, List.filter_cons, heq]
      simp [htail]

lemma list_sum_le_length_rat {l : List ℚ} (h : ∀ x ∈ l, x ≤ 1) :
    l.sum ≤ (l.length : ℚ) := by
  induction l with
  | nil => simp
  | cons x l ih =>
    have hx := h x (by simp)
    have hl := ih (fun y hy => h y (by simp [hy]))
    simp only [List.sum_cons, List.length_cons]
    push_cast
    linarith

/-- C4: for every run that returns a report, `missing_topics` is exactly
the sublist of input questions whose `QueryResult` status is `"not_found"`
in input order (the results list is in input order and carries the literal
questions), `queries_run` equals both the number of query results and the
number of input questions, and all four overall rate metrics lie in the
closed interval `[0, 1]`. -/
theorem benchmark_report_invariants (apiKey : Option String)
    (oracle : String → String → String) (siteUrl : String)
    (pages : List PageContent) (queries : List String) (report : BenchmarkReport)
    (h : runBenchmark apiKey oracle siteUrl pages queries = .ok report) :
    report.missingTopics =
      (report.queryResults.filter (fun r => r.status == "not_found")).map
        (fun r => r.query) ∧
    report.queryResults.map (fun r => r.query) = queries ∧
    report.queriesRun = report.queryResults.length ∧
    report.queriesRun = queries.length ∧
    (0 ≤ report.overallScores.answerabilityRate ∧
      report.overallScores.answerabilityRate ≤ 1) ∧
    (0 ≤ report.overallScores.citationCoverage ∧
      report.overallScores.citationCoverage ≤ 1) ∧
    (0 ≤ report.overallScores.hallucinationRate ∧
      report.overallScores.hallucinationRate ≤ 1) ∧
    (0 ≤ report.overallScores.completeness ∧
      report.overallScores.completeness ≤ 1) := by
  unfold runBenchmark at h
  cases hp : processQueries apiKey oracle (buildChunks pages) queries with
  | error e =>
    rw [hp] at h
    exact absurd h (by simp)
  | ok rows =>
    rw [hp] at h
    simp only [Except.ok.injEq] at h
    subst h
    obtain ⟨hq, hprops⟩ := processQueries_ok_props hp
    have hstatus : ∀ r ∈ rows.map (fun r => r.1),
        r.status = (if r.metrics.answerable then "answered" else "not_found") := by
      intro r hr
      rcases List.mem_map.mp hr with ⟨row, hrow, rfl⟩
      exact (hprops row hrow).1
    have hlenrows : rows.length = queries.length := by
      calc rows.length = (rows.map (fun r => r.1.query)).length :=
            (List.length_map _ _).symm
      _ = queries.length := by rw [hq]
    have htotpos : (0 : ℚ) < ((max 1 queries.length : ℕ) : ℚ) := by
      have h1 : (1 : ℕ) ≤ max 1 queries.length := le_max_left _ _
      exact_mod_cast lt_of_lt_of_le Nat.zero_lt_one h1
    have hcnt_bound : ∀ p : QueryResult → Bool,
        0 ≤ round2 (((rows.map (fun r => r.1)).countP p : ℚ) /
          ((max 1 queries.length : ℕ) : ℚ)) ∧
        round2 (((rows.map (fun r => r.1)).countP p : ℚ) /
          ((max 1 queries.length : ℕ) : ℚ)) ≤ 1 := by
      intro p
      have hle : (rows.map (fun r => r.1)).countP p ≤ max 1 queries.length := by
        calc (rows.map (fun r => r.1)).countP p
            ≤ (rows.map (fun r => r.1)).length := List.countP_le_length p
        _ = rows.length := List.length_map _ _
        _ = queries.length := hlenrows
        _ ≤ max 1 queries.length := le_max_right _ _
      constructor
      · exact round2_nonneg (div_nonneg (by positivity) (le_of_lt htotpos))
      · apply round2_le_one
        rw [div_le_one htotpos]
        exact_mod_cast hle
    refine ⟨?_, ?_, ?_, ?_, ?_, ?_, ?_, ?_⟩
    · show (rows.map (fun r => r.1)).filterMap
          (fun r => if r.metrics.answerable then none else some r.query) =
        ((rows.map (fun r => r.1)).filter (fun r => r.status == "not_found")).map
          (fun r => r.query)
      exact missing_filterMap_eq _ hstatus
    · show (rows.map (fun r => r.1)).map (fun r => r.query) = queries
      rw [List.map_map]
      exact hq
    · show queries.length = (rows.map (fun r => r.1)).length
      rw [List.length_map]
      exact hlenrows.symm
    · rfl
    · exact hcnt_bound _
    · exact hcnt_bound _
    · show 0 ≤ round2 ((0 : ℚ) / ((max 1 queries.length : ℕ) : ℚ)) ∧
        round2 ((0 : ℚ) / ((max 1 queries.length : ℕ) : ℚ)) ≤ 1
      rw [zero_div, round2_zero]
      norm_num
    · show 0 ≤ (if (rows.map (fun r => r.2)).isEmpty then (0 : ℚ)
          else round2 ((rows.map (fun r => r.2)).sum /
            ((max 1 queries.length : ℕ) : ℚ))) ∧
        (if (rows.map (fun r => r.2)).isEmpty then (0 : ℚ)
          else round2 ((rows.map (fun r => r.2)).sum /
            ((max 1 queries.length : ℕ) : ℚ))) ≤ 1
      by_cases he : (rows.map (fun r => r.2)).isEmpty
      · rw [if_pos he]
        norm_num
      · rw [if_neg he]
        have hnn : ∀ x ∈ rows.map (fun r => r.2), (0 : ℚ) ≤ x := by
          intro x hx
          rcases List.mem_map.mp hx with ⟨row, hrow, rfl⟩
          exact (hprops row hrow).2.2.1
        have hub : ∀ x ∈ rows.map (fun r => r.2), x ≤ (1 : ℚ) := by
          intro x hx
          rcases List.mem_map.mp hx with ⟨row, hrow, rfl⟩
          exact (hprops row hrow).2.2.2
        have hsum0 : (0 : ℚ) ≤ (rows.map (fun r => r.2)).sum :=
          List.sum_nonneg hnn
        have hsumlen : (rows.map (fun r => r.2)).sum ≤
            ((rows.map (fun r => r.2)).length : ℚ) :=
          list_sum_le_length_rat hub
        have hlen2 : ((rows.map (fun r => r.2)).length : ℚ) ≤
            ((max 1 queries.length : ℕ) : ℚ) := by
          rw [List.length_map]
          have : rows.length ≤ max 1 queries.length := by
            rw [hlenrows]
            exact le_max_right _ _
          exact_mod_cast this
        constructor
        · exact round2_nonneg (div_nonneg hsum0 (le_of_lt htotpos))
        · apply round2_le_one
          rw [div_le_one htotpos]
          linarith

/-- The report of a concrete degenerate run (no pages, no queries), used
only to witness the report invariants. -/
def sampleReport : BenchmarkReport :=
  { siteUrl := "u", crawledPages := 0, indexedChunks := 0, queriesRun := 0,
    overallScores := { answerabilityRate := 0, citationCoverage := 0,
                       hallucinationRate := 0, completeness := 0 },
    queryResults := [], missingTopics := [] }

/-- Witness for C4: a concrete run returns a report, and the invariants
hold for it. -/
theorem benchmark_report_invariants_witness :
    runBenchmark (some "k") (fun _ _ => "") "u" [] [] = .ok sampleReport ∧
    sampleReport.missingTopics =
      (sampleReport.queryResults.filter (fun r => r.status == "not_found")).map
        (fun r => r.query) := by
  have h : runBenchmark (some "k") (fun _ _ => "") "u" [] [] = .ok sampleReport := by
    simp [runBenchmark, processQueries, mkReport, buildChunks, round2, sampleReport]
  exact ⟨h, (benchmark_report_invariants (some "k") (fun _ _ => "") "u" [] []
    sampleReport h).1⟩

/-- Whether a query's retrieved top chunks pass the 0.2 relevance gate of
`_build_answer`, i.e. whether the completion service would be invoked. -/
def gatePasses (query : String) (chunks : List (String × String)) : Bool :=
  match selectTopChunks query chunks 3 with
  | [] => false
  | t :: _ => !(decide (t.2.2 < 1/5))

lemma buildAnswer_cons_lt (apiKey : Option String) (oracle : String → String → String)
    (query : String) (t : String × String × ℚ) (ts : List (String × String × ℚ))
    (h : t.2.2 < 1/5) :
    buildAnswer apiKey oracle query (t :: ts) = .ok (("NOT FOUND", [], false), 0) := by
  simp only [buildAnswer]
  rw [if_pos h]

lemma buildAnswer_none_cons_ge (oracle : String → String → String)
    (query : String) (t : String × String × ℚ) (ts : List (String × String × ℚ))
    (h : ¬ t.2.2 < 1/5) :
    buildAnswer none oracle query (t :: ts) = .error () := by
  simp only [buildAnswer]
  rw [if_neg h]
  rfl

lemma processQuery_none_error_iff (oracle : String → String → String)
    (chunks : List (String × String)) (query : String) :
    processQuery none oracle chunks query = .error () ↔
      gatePasses query chunks = true := by
  cases hsel : selectTopChunks query chunks 3 with
  | nil =>
    have hq : processQuery none oracle chunks query ≠ .error () := by
      unfold processQuery
      rw [hsel, buildAnswer_gate none oracle query [] (Or.inl rfl)]
      simp
    have hgp : gatePasses query chunks = false := by
      unfold gatePasses
      rw [hsel]
    exact iff_of_false hq (by simp [hgp])
  | cons t ts =>
    have hgp : gatePasses query chunks = !(decide (t.2.2 < 1/5)) := by
      unfold gatePasses
      rw [hsel]
    by_cases hlt : t.2.2 < 1/5
    · have hq : processQuery none oracle chunks query ≠ .error () := by
        unfold processQuery
        rw [hsel, buildAnswer_cons_lt none oracle query t ts hlt]
        simp
      refine iff_of_false hq ?_
      rw [hgp, decide_eq_true hlt]
      simp
    · have hq : processQuery none oracle chunks query = .error () := by
        unfold processQuery
        rw [hsel, buildAnswer_none_cons_ge oracle query t ts hlt]
      refine iff_of_true hq ?_
      rw [hgp, decide_eq_false hlt]
      rfl

lemma processQueries_none_error_iff (oracle : String → String → String)
    (chunks : List (String × String)) (queries : List String) :
    processQueries none oracle chunks queries = .error () ↔
      ∃ q ∈ queries, gatePasses q chunks = true := by
  induction queries with
  | nil => simp [processQueries]
  | cons q qs ih =>
    simp only [processQueries]
    cases hq : processQuery none oracle chunks q with
    | error e =>
      cases e
      have hg : gatePasses q chunks = true :=
        (processQuery_none_error_iff oracle chunks q).mp hq
      constructor
      · intro _
        exact ⟨q, by simp, hg⟩
      · intro _
        rfl
    | ok row =>
      have hg : ¬ gatePasses q chunks = true := by
        intro hgate
        have herr := (processQuery_none_error_iff oracle chunks q).mpr hgate
        rw [hq] at herr
        exact absurd herr (by simp)
      cases hqs : processQueries none oracle chunks qs with
      | error e =>
        cases e
        constructor
        · intro _
          rcases ih.mp hqs with ⟨q2, hq2, hg2⟩
          exact ⟨q2, by simp [hq2], hg2⟩
        · intro _
          rfl
      | ok rows =>
        constructor
        · intro hcontr
          exact absurd hcontr (by simp)
        · rintro ⟨q2, hq2, hg2⟩
          rcases List.mem_cons.mp hq2 with rfl | hq2
          · exact absurd hg2 hg
          · have herr := ih.mpr ⟨q2, hq2, hg2⟩
            rw [hqs] at herr
            exact absurd herr (by simp)

/-- C3 (amended): with the completion-service credential absent, the run
raises the configuration error — aborting with no report — iff at least one
question's retrieved top chunks pass the 0.2 relevance gate (i.e. the run
would actually invoke the completion service); a credential-less run in
which no question reaches the completion call completes normally and
returns a report. -/
theorem missing_key_error_iff (oracle : String → String → String) (siteUrl : String)
    (pages : List PageContent) (queries : List String) :
    runBenchmark none oracle siteUrl pages queries = .error () ↔
      ∃ q ∈ queries, gatePasses q (buildChunks pages) = true := by
  rw [← processQueries_none_error_iff oracle (buildChunks pages) queries]
  unfold runBenchmark
  cases hp : processQueries none oracle (buildChunks pages) queries with
  | error e =>
    cases e
    simp
  | ok rows =>
    simp

/-- C3 counterexample: with the credential absent and a run whose single
question never reaches the completion call (zero crawled pages, so the gate
short-circuits), the benchmark does not fail: it returns a report and that
report carries a `QueryResult` for the question. -/
theorem missing_key_counterexample :
    ((runBenchmark none (fun _ _ => "") "u" [] ["q"]).toOption.map
      (fun r => r.queryResults.length)) = some 1 := by
  have hsel : selectTopChunks "q" (buildChunks []) 3 = [] := rfl
  have hb : buildAnswer none (fun _ _ => "") "q" (selectTopChunks "q" (buildChunks []) 3) =
      .ok (("NOT FOUND", [], false), 0) :=
    buildAnswer_gate none (fun _ _ => "") "q" _ (Or.inl hsel)
  simp only [runBenchmark, processQueries, processQuery, hb, mkReport]
  rfl

/-- C10 (amended): a question gated to NotFound has its completeness
computed from the literal `"NOT FOUND"` placeholder answer, so a gated
question whose token set contains "not" or "found" gets a strictly
positive raw completeness score; the value reported in the `QueryResult`
metrics is that score rounded to two decimals (and can therefore be 0 when
the raw score is below half a percent). -/
theorem notfound_completeness_positive (apiKey : Option String)
    (oracle : String → String → String) (chunks : List (String × String))
    (query : String)
    (hgate : selectTopChunks query chunks 3 = [] ∨
      ∀ c ∈ selectTopChunks query chunks 3, c.2.2 < 1/5)
    (htok : "not" ∈ pyTokenize query ∨ "found" ∈ pyTokenize query) :
    processQuery apiKey oracle chunks query =
      .ok ({ query := query, answer := "NOT FOUND", status := "not_found",
             citations := [],
             metrics := { answerable := false, citationOk := false,
                          hallucination := false,
                          completeness := round2 (completenessScore query "NOT FOUND") } },
           completenessScore query "NOT FOUND") ∧
    0 < completenessScore query "NOT FOUND" := by
  constructor
  · unfold processQuery
    rw [buildAnswer_gate apiKey oracle query _ hgate]
    rfl
  · have hnf : pyTokenize "NOT FOUND" = ["not", "found"] := by decide
    have hex : ∃ t, t ∈ pyTokenize query ∧ t ∈ pyTokenize "NOT FOUND" := by
      rcases htok with h | h
      · exact ⟨"not", h, by rw [hnf]; simp⟩
      · exact ⟨"found", h, by rw [hnf]; simp⟩
    obtain ⟨t0, ht0q, ht0a⟩ := hex
    have ht0d : t0 ∈ (pyTokenize query).dedup := List.mem_dedup.mpr ht0q
    have hef : ((pyTokenize query).dedup).isEmpty = false := by
      cases hd : (pyTokenize query).dedup with
      | nil =>
        rw [hd] at ht0d
        simp at ht0d
      | cons a l => simp [hd]
    unfold completenessScore
    simp only [hef, Bool.false_eq_true, if_false]
    apply div_pos
    · have hmem : t0 ∈ ((pyTokenize query).dedup.filter
          (fun t => t ∈ pyTokenize "NOT FOUND")) := by
        apply List.mem_filter.mpr
        exact ⟨ht0d, by simp [ht0a]⟩
      have hpos : 0 < ((pyTokenize query).dedup.filter
          (fun t => t ∈ pyTokenize "NOT FOUND")).length :=
        List.length_pos.mpr (List.ne_nil_of_mem hmem)
      exact_mod_cast hpos
    · have hpos : 0 < (pyTokenize query).dedup.length :=
        List.length_pos.mpr (List.ne_nil_of_mem ht0d)
      exact_mod_cast hpos

/-- Witness for C10's amended claim: a concrete gated question containing
the token "not" gets a strictly positive raw completeness score. -/
theorem notfound_completeness_positive_witness :
    (selectTopChunks "is it not here" [] 3 = []) ∧
    ("not" ∈ pyTokenize "is it not here") ∧
    0 < completenessScore "is it not here" "NOT FOUND" :=
  ⟨rfl, by decide,
   (notfound_completeness_positive (some "k") (fun _ _ => "") [] "is it not here"
     (Or.inl rfl) (Or.inl (by decide))).2⟩

/-- A question with 201 distinct tokens, one of which is "not". -/
def longQuery : String :=
  String.intercalate " " ("not" :: (List.range 200).map (fun i => Nat.repr i))

set_option maxRecDepth 100000 in
set_option maxHeartbeats 4000000 in
/-- C10 counterexample, refuting the claim as stated: this question
contains the token "not" and is gated to NotFound (no chunks at all), yet
the completeness reported in its `QueryResult` metrics is exactly 0: the
raw score 1/201 is below half a percent, so the 2-decimal rounding
`round(·, 2)` returns 0. -/
theorem notfound_completeness_counterexample :
    ("not" ∈ pyTokenize longQuery) ∧
    processQuery (some "k") (fun _ _ => "") [] longQuery =
      .ok ({ query := longQuery, answer := "NOT FOUND", status := "not_found",
             citations := [],
             metrics := { answerable := false, citationOk := false,
                          hallucination := false, completeness := 0 } },
           1/201) := by
  constructor
  · decide
  · have hdedup : ((pyTokenize longQuery).dedup).length = 201 := by decide
    have hfilter : (((pyTokenize longQuery).dedup).filter
        (fun t => t ∈ pyTokenize "NOT FOUND")).length = 1 := by decide
    have hef : ((pyTokenize longQuery).dedup).isEmpty = false := by
      cases hd : (pyTokenize longQuery).dedup with
      | nil =>
        rw [hd] at hdedup
        simp at hdedup
      | cons a l => simp [hd]
    have hcs : completenessScore longQuery "NOT FOUND" = 1/201 := by
      unfold completenessScore
      simp only [hef, Bool.false_eq_true, if_false]
      rw [hfilter, hdedup]
      norm_num
    have hr2 : round2 ((1 : ℚ)/201) = 0 := by
      unfold round2
      rw [round_eq]
      norm_num
    have hq : processQuery (some "k") (fun _ _ => "") [] longQuery =
        .ok ({ query := longQuery, answer := "NOT FOUND", status := "not_found",
               citations := [],
               metrics := { answerable := false, citationOk := false,
                            hallucination := false,
                            completeness :=
                              round2 (completenessScore longQuery "NOT FOUND") } },
             completenessScore longQuery "NOT FOUND") := by
      unfold processQuery
      rw [buildAnswer_gate (some "k") (fun _ _ => "") longQuery
        (selectTopChunks longQuery [] 3) (Or.inl rfl)]
      rfl
    rw [hq, hcs, hr2]

/-- One parsed entry of the single-call LLM response in the
`backend/benchmark.py` variant: the optional `query`, `answer` and `found`
fields of one JSON object (a missing key falls back to the `.get`
default). -/
abbrev PyAnswer := Option String × Option String × Option Bool

/-- The result-processing loop of the backend variant (`for i, result in
enumerate(results)`), building one `QueryResult` per parsed entry. -/
def backendRows (queries : List String) (pages : List PageContent) (siteUrl : String) :
    ℕ → List PyAnswer → List QueryResult
  | _, [] => []
  | i, r :: rs =>
    let query := r.1.getD
      (if i < queries.length then queries.getD i "" else "Question " ++ Nat.repr (i + 1))
    let answer := r.2.1.getD "NOT FOUND"
    let found := r.2.2.getD false
    let answered := found && !(containsSub "NOT FOUND".data (upperChars answer))
    { query := query, answer := answer,
      status := if answered then "answered" else "not_found",
      citations :=
        if found then [((pages.head?.map (fun p => p.url)).getD siteUrl, "page")] else [],
      metrics := { answerable := found, citationOk := found, hallucination := false,
                   completeness := if found then 1 else 0 } } ::
      backendRows queries pages siteUrl (i + 1) rs

/-- `run_answerability_benchmark` of the `backend/benchmark.py` variant:
zero crawled pages short-circuit to the fixed "Could not crawl website"
report; otherwise the single completion call is made and its parsed entries
(`llmResults`, abstracting the prompt construction, the OpenAI call and the
JSON parsing) are folded into the report. -/
def runBackendBenchmark (llmResults : List PyAnswer) (siteUrl : String)
    (pages : List PageContent) (queries : List String) : BenchmarkReport :=
  if pages.isEmpty then
    { siteUrl := siteUrl
      crawledPages := 0
      indexedChunks := 0
      queriesRun := queries.length
      overallScores := { answerabilityRate := 0, citationCoverage := 0,
                         hallucinationRate := 0, completeness := 0 }
      queryResults := queries.map (fun q =>
        { query := q, answer := "Could not crawl website", status := "not_found",
          citations := [],
          metrics := { answerable := false, citationOk := false, hallucination := false,
                       completeness := 0 } })
      missingTopics := queries }
  else
    let rows := backendRows queries pages siteUrl 0 llmResults
    let answered := rows.countP (fun r => r.status == "answered")
    let missingTopics := rows.filterMap
      (fun r => if r.status == "answered" then none else some r.query)
    let total : ℕ := max 1 queries.length
    { siteUrl := siteUrl
      crawledPages := pages.length
      indexedChunks := pages.length
      queriesRun := queries.length
      overallScores := { answerabilityRate := round2 ((answered : ℚ) / total)
                         citationCoverage := round2 ((answered : ℚ) / total)
                         hallucinationRate := 0
                         completeness := round2 ((answered : ℚ) / total) }
      queryResults := rows
      missingTopics := missingTopics }

/-- C2: when the crawl yields zero pages, the backend aggregator
short-circuits to a report with `crawled_pages = 0`, `indexed_chunks = 0`,
all four overall scores 0, every question answered
`"Could not crawl website"` with status NotFound and zeroed metrics, and
`missing_topics` equal to the full input question list in input order —
independently of the completion service (`llmResults` is arbitrary; neither
retrieval nor synthesis runs on this path). -/
theorem empty_crawl_report (llmResults : List PyAnswer) (siteUrl : String)
    (queries : List String) :
    runBackendBenchmark llmResults siteUrl [] queries =
      { siteUrl := siteUrl, crawledPages := 0, indexedChunks := 0,
        queriesRun := queries.length,
        overallScores := { answerabilityRate := 0, citationCoverage := 0,
                           hallucinationRate := 0, completeness := 0 },
        queryResults := queries.map (fun q =>
          { query := q, answer := "Could not crawl website", status := "not_found",
            citations := [],
            metrics := { answerable := false, citationOk := false,
                         hallucination := false, completeness := 0 } }),
        missingTopics := queries } := rfl

/-- URL characters that terminate the network-location component in
`urlparse` (`_splitnetloc` stops at `/`, `?` or `#`). -/
def nonDelim (c : Char) : Bool := !(c == '/' || c == '?' || c == '#')

/-- Characters allowed in a URL scheme (`urllib.parse.scheme_chars`). -/
def schemeChar (c : Char) : Bool :=
  c.isAlpha || c.isDigit || c == '+' || c == '-' || c == '.'

/-- A valid scheme prefix: nonempty, starting with an ASCII letter, all
scheme characters. -/
def validScheme (p : List Char) : Bool :=
  match p with
  | [] => false
  | c :: _ => c.isAlpha && p.all schemeChar

/-- Split a URL at its first colon: `some (prefix, rest)` iff a colon
occurs. -/
def splitColon : List Char → Option (List Char × List Char)
  | [] => none
  | c :: t =>
    if c = ':' then some ([], t)
    else (splitColon t).map (fun pr => (c :: pr.1, pr.2))

/-- Strip a valid `scheme:` prefix from the URL, as `urlsplit` does; a
missing or invalid scheme leaves the URL unchanged. -/
def afterScheme (u : List Char) : List Char :=
  match splitColon u with
  | none => u
  | some (p, r) => if validScheme p then r else u

/-- The netloc of a scheme-stripped URL: nonempty only after a leading
`//`, extending to the first `/`, `?` or `#`. -/
def netlocOf (r : List Char) : List Char :=
  if r.take 2 = ['/', '/'] then (r.drop 2).takeWhile nonDelim else []

/-- `urlparse(url).netloc`. -/
def netloc (u : List Char) : List Char := netlocOf (afterScheme u)

/-- `_is_same_host(root, url)`: equality of the two netlocs. -/
def isSameHost (root url : String) : Bool := netloc root.data == netloc url.data

/-- `url.rstrip('/')`. -/
def rstripSlash : List Char → List Char
  | [] => []
  | c :: t =>
    match rstripSlash t with
    | [] => if c = '/' then [] else [c]
    | r => c :: r

/-- The shape shared by all priority paths appended to the stripped seed:
empty, or a slash followed by a nonempty run of lowercase letters and
dashes. -/
def pathOkB : List Char → Bool
  | [] => true
  | c :: t => c == '/' && !t.isEmpty && t.all (fun x => x.isLower || x == '-')

lemma rstripSlash_eq_nil_iff (l : List Char) :
    rstripSlash l = [] ↔ ∀ c ∈ l, c = '/' := by
  induction l with
  | nil => simp [rstripSlash]
  | cons c t ih =>
    simp only [rstripSlash]
    cases hr : rstripSlash t with
    | nil =>
      have ht : ∀ x ∈ t, x = '/' := ih.mp hr
      by_cases hc : c = '/'
      · subst hc
        simp only [if_pos rfl]
        constructor
        · intro _ x hx
          rcases List.mem_cons.mp hx with rfl | hx
          · rfl
          · exact ht x hx
        · intro _
          rfl
      · simp only [if_neg hc]
        constructor
        · intro h
          exact absurd h (by simp)
        · intro h
          exact absurd (h c (by simp)) hc
    | cons r0 r1 =>
      constructor
      · intro h
        exact absurd h (by simp)
      · intro h
        have h2 := ih.mpr (fun x hx => h x (by simp [hx]))
        rw [hr] at h2
        exact absurd h2 (by simp)

lemma rstripSlash_append_cons (a : List Char) (c : Char) (b : List Char) (hc : c ≠ '/') :
    rstripSlash (a ++ c :: b) = a ++ c :: rstripSlash b := by
  induction a with
  | nil =>
    simp only [List.nil_append, rstripSlash]
    cases hr : rstripSlash b with
    | nil => simp [hc]
    | cons r0 r1 => rfl
  | cons x a ih =>
    have hne : a ++ c :: rstripSlash b ≠ [] := by simp
    obtain ⟨y, l, hyl⟩ := List.exists_cons_of_ne_nil hne
    simp only [List.cons_append, rstripSlash, List.append_eq, ih, hyl]

lemma mem_rstripSlash {x : Char} : ∀ {l : List Char}, x ∈ rstripSlash l → x ∈ l := by
  intro l
  induction l with
  | nil => simp [rstripSlash]
  | cons c t ih =>
    simp only [rstripSlash]
    cases hr : rstripSlash t with
    | nil =>
      by_cases hc : c = '/'
      · simp [hc]
      · simp only [if_neg hc]
        intro h
        rcases List.mem_singleton.mp h with rfl
        simp
    | cons r0 r1 =>
      intro h
      rcases List.mem_cons.mp h with rfl | h
      · simp
      · have h2 : x ∈ rstripSlash t := by rw [hr]; exact h
        exact List.mem_cons.mpr (Or.inr (ih h2))

lemma splitColon_eq_none_iff (l : List Char) :
    splitColon l = none ↔ ':' ∉ l := by
  induction l with
  | nil => simp [splitColon]
  | cons c t ih =>
    simp only [splitColon]
    by_cases hc : c = ':'
    · subst hc
      simp
    · rw [if_neg hc]
      cases hs : splitColon t with
      | none =>
        refine iff_of_true rfl ?_
        intro hmem
        rcases List.mem_cons.mp hmem with h1 | h1
        · exact hc h1.symm
        · exact (ih.mp hs) h1
      | some pr =>
        refine iff_of_false (by intro hcontr; exact Option.noConfusion hcontr) ?_
        intro h
        have hnt : ':' ∉ t := fun hm => h (List.mem_cons.mpr (Or.inr hm))
        rw [ih.mpr hnt] at hs
        exact absurd hs (by simp)

lemma splitColon_eq_some :
    ∀ (l p r : List Char), splitColon l = some (p, r) →
      l = p ++ ':' :: r ∧ ':' ∉ p := by
  intro l
  induction l with
  | nil =>
    intro p r h
    simp [splitColon] at h
  | cons c t ih =>
    intro p r h
    simp only [splitColon] at h
    by_cases hc : c = ':'
    · subst hc
      rw [if_pos rfl] at h
      simp only [Option.some.injEq, Prod.mk.injEq] at h
      obtain ⟨h1, h2⟩ := h
      subst h1
      subst h2
      simp
    · rw [if_neg hc] at h
      cases hs : splitColon t with
      | none =>
        rw [hs] at h
        exact absurd h (by intro hcontr; exact Option.noConfusion hcontr)
      | some pr =>
        obtain ⟨p2, r2⟩ := pr
        rw [hs] at h
        have h2 : some (c :: p2, r2) = some (p, r) := h
        simp only [Option.some.injEq, Prod.mk.injEq] at h2
        obtain ⟨hp, hr⟩ := h2
        obtain ⟨ht, hnp⟩ := ih p2 r2 hs
        subst hp
        subst hr
        constructor
        · rw [ht]
          simp
        · intro hm
          rcases List.mem_cons.mp hm with h3 | h3
          · exact hc h3.symm
          · exact hnp h3

lemma pathOkB_spec (p : List Char) (hp : pathOkB p = true) :
    p = [] ∨ ∃ t, p = '/' :: t ∧ t ≠ [] ∧ ∀ c ∈ t, (c.isLower || c == '-') = true := by
  cases p with
  | nil => exact Or.inl rfl
  | cons c t =>
    simp only [pathOkB, Bool.and_eq_true, beq_iff_eq, Bool.not_eq_true'] at hp
    obtain ⟨⟨hc, hne⟩, hall⟩ := hp
    subst hc
    refine Or.inr ⟨t, rfl, ?_, ?_⟩
    · intro he
      subst he
      simp at hne
    · intro x hx
      exact (List.all_eq_true.mp hall) x hx

lemma lower_dash_ne_slash {c : Char} (h : (c.isLower || c == '-') = true) : c ≠ '/' := by
  intro he
  subst he
  simp at h

lemma lower_dash_ne_colon {c : Char} (h : (c.isLower || c == '-') = true) : c ≠ ':' := by
  intro he
  subst he
  simp at h

lemma pathOk_no_colon (p : List Char) (hp : pathOkB p = true) : ':' ∉ p := by
  rcases pathOkB_spec p hp with rfl | ⟨t, rfl, _, hall⟩
  · simp
  · intro hm
    rcases List.mem_cons.mp hm with h1 | h1
    · exact absurd h1 (by decide)
    · exact absurd rfl (lower_dash_ne_colon (hall ':' h1))

lemma pathOk_takeWhile (p : List Char) (hp : pathOkB p = true) :
    p.takeWhile nonDelim = [] := by
  rcases pathOkB_spec p hp with rfl | ⟨t, rfl, _, _⟩
  · rfl
  · rw [List.takeWhile_cons_of_neg (by decide)]

lemma netlocOf_not_slash_head (c : Char) (l : List Char) (hc : c ≠ '/') :
    netlocOf (c :: l) = [] := by
  unfold netlocOf
  rw [if_neg]
  intro h
  have h2 := congrArg List.head? h
  simp at h2
  exact hc h2

lemma netlocOf_second_not_slash (c : Char) (l : List Char) (hc : c ≠ '/') :
    netlocOf ('/' :: c :: l) = [] := by
  unfold netlocOf
  rw [if_neg]
  intro h
  simp at h
  exact hc h

lemma netlocOf_double_slash (t : List Char) :
    netlocOf ('/' :: '/' :: t) = t.takeWhile nonDelim := by
  simp [netlocOf]

lemma netlocOf_single_slash : netlocOf ['/'] = [] := by
  simp [netlocOf]

lemma pathOk_netlocOf (p : List Char) (hp : pathOkB p = true) : netlocOf p = [] := by
  rcases pathOkB_spec p hp with rfl | ⟨t, rfl, hne, hall⟩
  · rfl
  · cases t with
    | nil => exact netlocOf_single_slash
    | cons d t2 =>
      exact netlocOf_second_not_slash d t2 (lower_dash_ne_slash (hall d (by simp)))

lemma rstripSlash_cons_ne (c : Char) (t : List Char) (hc : c ≠ '/') :
    rstripSlash (c :: t) = c :: rstripSlash t := by
  simp only [rstripSlash]
  cases hr : rstripSlash t with
  | nil => simp [hc]
  | cons r0 r1 => rfl

lemma rstripSlash_slash_nil (t : List Char) (h : rstripSlash t = []) :
    rstripSlash ('/' :: t) = [] := by
  simp [rstripSlash, h]

lemma rstripSlash_slash_cons (t r0 : List Char) (r1 : Char) (h : rstripSlash t = r1 :: r0) :
    rstripSlash ('/' :: t) = '/' :: r1 :: r0 := by
  simp [rstripSlash, h]

lemma takeWhile_all_slash (t : List Char) (h : ∀ c ∈ t, c = '/') :
    t.takeWhile nonDelim = [] := by
  cases t with
  | nil => rfl
  | cons c t2 =>
    have hc : c = '/' := h c (by simp)
    subst hc
    rw [List.takeWhile_cons_of_neg (by decide)]

lemma takeWhile_rstrip_append (p : List Char) (hp : pathOkB p = true) :
    ∀ t : List Char, ((rstripSlash t) ++ p).takeWhile nonDelim = t.takeWhile nonDelim := by
  intro t
  induction t with
  | nil =>
    show p.takeWhile nonDelim = ([] : List Char).takeWhile nonDelim
    rw [pathOk_takeWhile p hp]
    rfl
  | cons c t ih =>
    by_cases hc : c = '/'
    · subst hc
      cases hr : rstripSlash t with
      | nil =>
        rw [rstripSlash_slash_nil t hr, List.nil_append,
          pathOk_takeWhile p hp, List.takeWhile_cons_of_neg (by decide)]
      | cons r0 r1 =>
        rw [rstripSlash_slash_cons t r1 r0 hr, List.cons_append,
          List.takeWhile_cons_of_neg (by decide),
          List.takeWhile_cons_of_neg (by decide)]
    · rw [rstripSlash_cons_ne c t hc]
      by_cases hnd : nonDelim c = true
      · rw [List.cons_append, List.takeWhile_cons_of_pos hnd,
          List.takeWhile_cons_of_pos hnd, ih]
      · rw [List.cons_append,
          List.takeWhile_cons_of_neg (by simpa using hnd),
          List.takeWhile_cons_of_neg (by simpa using hnd)]

lemma netlocOf_rstrip_append (p : List Char) (hp : pathOkB p = true) :
    ∀ r : List Char, netlocOf ((rstripSlash r) ++ p) = netlocOf r := by
  intro r
  cases r with
  | nil =>
    show netlocOf ([] ++ p) = netlocOf []
    rw [List.nil_append, pathOk_netlocOf p hp]
    rfl
  | cons c1 r1 =>
    by_cases h1 : c1 = '/'
    · subst h1
      cases r1 with
      | nil =>
        rw [rstripSlash_slash_nil [] rfl, List.nil_append,
          pathOk_netlocOf p hp, netlocOf_single_slash]
      | cons c2 t =>
        by_cases h2 : c2 = '/'
        · subst h2
          cases hrt : rstripSlash t with
          | nil =>
            rw [rstripSlash_slash_nil ('/' :: t) (rstripSlash_slash_nil t hrt),
              List.nil_append, pathOk_netlocOf p hp, netlocOf_double_slash,
              takeWhile_all_slash t ((rstripSlash_eq_nil_iff t).mp hrt)]
          | cons r0 r2 =>
            rw [rstripSlash_slash_cons ('/' :: t) (r0 :: r2) '/'
              (rstripSlash_slash_cons t r2 r0 hrt)]
            rw [List.cons_append, List.cons_append, netlocOf_double_slash,
              netlocOf_double_slash]
            have h3 := takeWhile_rstrip_append p hp t
            rw [hrt] at h3
            exact h3
        · rw [rstripSlash_slash_cons (c2 :: t) (rstripSlash t) c2
            (rstripSlash_cons_ne c2 t h2)]
          rw [List.cons_append, List.cons_append,
            netlocOf_second_not_slash c2 _ h2, netlocOf_second_not_slash c2 t h2]
    · rw [rstripSlash_cons_ne c1 r1 h1, List.cons_append,
        netlocOf_not_slash_head c1 _ h1, netlocOf_not_slash_head c1 r1 h1]

lemma splitColon_append (P X : List Char) (h : ':' ∉ P) :
    splitColon (P ++ ':' :: X) = some (P, X) := by
  induction P with
  | nil => simp [splitColon]
  | cons c P2 ih =>
    have hc : c ≠ ':' := fun he => h (by simp [he])
    simp only [List.cons_append, splitColon, if_neg hc, List.append_eq]
    rw [ih (fun hm => h (by simp [hm]))]
    rfl

lemma afterScheme_of_splitColon_none (u : List Char) (h : splitColon u = none) :
    afterScheme u = u := by
  unfold afterScheme
  rw [h]

lemma afterScheme_of_splitColon_some (u P R : List Char)
    (h : splitColon u = some (P, R)) :
    afterScheme u = if validScheme P then R else u := by
  unfold afterScheme
  rw [h]

lemma afterScheme_rstrip_append (p : List Char) (hp : pathOkB p = true) (u : List Char) :
    afterScheme ((rstripSlash u) ++ p) = (rstripSlash (afterScheme u)) ++ p := by
  have hpc : ':' ∉ p := pathOk_no_colon p hp
  cases hs : splitColon u with
  | none =>
    have hnc : ':' ∉ u := (splitColon_eq_none_iff u).mp hs
    have hnc2 : ':' ∉ rstripSlash u ++ p := by
      intro hm
      rcases List.mem_append.mp hm with hm | hm
      · exact hnc (mem_rstripSlash hm)
      · exact hpc hm
    rw [afterScheme_of_splitColon_none _ ((splitColon_eq_none_iff _).mpr hnc2),
      afterScheme_of_splitColon_none u hs]
  | some pr =>
    obtain ⟨P, R⟩ := pr
    obtain ⟨hu, hnP⟩ := splitColon_eq_some u P R hs
    subst hu
    have hstrip := rstripSlash_append_cons P ':' R (by decide)
    have hsplit2 : splitColon ((rstripSlash (P ++ ':' :: R)) ++ p) =
        some (P, rstripSlash R ++ p) := by
      rw [hstrip, List.append_assoc, List.cons_append]
      exact splitColon_append P (rstripSlash R ++ p) hnP
    rw [afterScheme_of_splitColon_some _ P (rstripSlash R ++ p) hsplit2,
      afterScheme_of_splitColon_some _ P R hs]
    by_cases hv : validScheme P = true
    · rw [if_pos hv, if_pos hv]
    · rw [if_neg hv, if_neg hv]

/-- Appending any priority-path shape to the slash-stripped URL preserves
the netloc: the backend's `f"{base}{path}"` guesses never leave the seed's
host. -/
lemma netloc_rstrip_append (p : List Char) (hp : pathOkB p = true) (u : List Char) :
    netloc ((rstripSlash u) ++ p) = netloc u := by
  unfold netloc
  rw [afterScheme_rstrip_append p hp u]
  exact netlocOf_rstrip_append p hp (afterScheme u)

/-- The outcome of fetching and extracting one URL: page title, page text
and the outbound links after `urljoin`/`urldefrag` resolution and the
per-page cap (all collaborator-side).  `none` stands for a request
exception or an HTTP status ≥ 400. -/
structure FetchResult where
  title : String
  text : String
  links : List String
deriving DecidableEq

/-- The crawl loop shared by both `crawl_site` variants: explicit queue,
visited set and page accumulator, with a fuel bound standing for the loop
iterations (the Python loop terminates since successful fetches are capped
by `max_pages`; the same-host safety property below holds for every fuel
value, hence for the real execution). -/
def crawlGo (fetch : String → Option FetchResult) (startUrl : String) (maxPages : ℕ) :
    ℕ → List String → List String → List PageContent → List PageContent
  | 0, _, _, pages => pages
  | _ + 1, _, [], pages => pages
  | fuel + 1, seen, url :: rest, pages =>
    if maxPages ≤ pages.length then pages
    else if url ∈ seen then crawlGo fetch startUrl maxPages fuel seen rest pages
    else
      match fetch url with
      | none => crawlGo fetch startUrl maxPages fuel (url :: seen) rest pages
      | some res =>
        crawlGo fetch startUrl maxPages fuel (url :: seen)
          (rest ++ res.links.filter
            (fun l => isSameHost startUrl l && !((url :: seen).contains l)))
          (pages ++ [{ url := url, title := res.title, text := res.text }])

/-- `crawl_site` of the ai_tool_anayze variant: the queue starts with the
raw seed URL. -/
def crawlSite (fetch : String → Option FetchResult) (startUrl : String)
    (maxPages fuel : ℕ) : List PageContent :=
  crawlGo fetch startUrl maxPages fuel [] [startUrl] []

/-- The fixed priority path guesses of the backend `crawl_site` variant. -/
def priorityPaths : List String :=
  ["", "/contact", "/contact-us", "/about", "/about-us", "/pricing",
   "/prices", "/plans", "/faq", "/support", "/help", "/locations",
   "/hours", "/refund", "/refund-policy", "/terms", "/services"]

/-- `crawl_site` of the backend variant: the queue starts with
`start_url.rstrip('/') + path` for each priority path, then the raw seed. -/
def crawlSitePriority (fetch : String → Option FetchResult) (startUrl : String)
    (maxPages fuel : ℕ) : List PageContent :=
  crawlGo fetch startUrl maxPages fuel []
    ((priorityPaths.map (fun p => String.mk (rstripSlash startUrl.data ++ p.data))) ++
      [startUrl]) []

lemma crawlGo_same_host (fetch : String → Option FetchResult) (startUrl : String)
    (maxPages : ℕ) :
    ∀ (fuel : ℕ) (seen queue : List String) (pages : List PageContent),
      (∀ u ∈ queue, netloc u.data = netloc startUrl.data) →
      (∀ pg ∈ pages, netloc pg.url.data = netloc startUrl.data) →
      ∀ pg ∈ crawlGo fetch startUrl maxPages fuel seen queue pages,
        netloc pg.url.data = netloc startUrl.data := by
  intro fuel
  induction fuel with
  | zero =>
    intro seen queue pages hq hp pg hpg
    exact hp pg hpg
  | succ fuel ih =>
    intro seen queue pages hq hp pg hpg
    cases queue with
    | nil =>
      simp only [crawlGo] at hpg
      exact hp pg hpg
    | cons url rest =>
      simp only [crawlGo] at hpg
      by_cases hmax : maxPages ≤ pages.length
      · rw [if_pos hmax] at hpg
        exact hp pg hpg
      · rw [if_neg hmax] at hpg
        by_cases hseen : url ∈ seen
        · rw [if_pos hseen] at hpg
          exact ih seen rest pages (fun u hu => hq u (by simp [hu])) hp pg hpg
        · rw [if_neg hseen] at hpg
          cases hf : fetch url with
          | none =>
            rw [hf] at hpg
            exact ih _ rest pages (fun u hu => hq u (by simp [hu])) hp pg hpg
          | some res =>
            rw [hf] at hpg
            refine ih _ _ _ ?_ ?_ pg hpg
            · intro u hu
              rcases List.mem_append.mp hu with hu | hu
              · exact hq u (by simp [hu])
              · have hcond := (List.mem_filter.mp hu).2
                have hsh : isSameHost startUrl u = true := by
                  simp only [Bool.and_eq_true] at hcond
                  exact hcond.1
                unfold isSameHost at hsh
                exact (beq_iff_eq.mp hsh).symm
            · intro x hx
              rcases List.mem_append.mp hx with hx | hx
              · exact hp x hx
              · rcases List.mem_singleton.mp hx with rfl
                exact hq url (by simp)

/-- C9: every page returned by either `crawl_site` variant — including the
one that seeds the queue with the fixed priority paths — has a URL whose
host component (urlparse netloc) equals the seed URL's host, for every
fetcher behaviour, every page budget and every fuel bound. -/
theorem crawl_same_host (fetch : String → Option FetchResult) (startUrl : String)
    (maxPages fuel : ℕ) (pg : PageContent) :
    (pg ∈ crawlSite fetch startUrl maxPages fuel →
      netloc pg.url.data = netloc startUrl.data) ∧
    (pg ∈ crawlSitePriority fetch startUrl maxPages fuel →
      netloc pg.url.data = netloc startUrl.data) := by
  constructor
  · intro hpg
    refine crawlGo_same_host fetch startUrl maxPages fuel [] [startUrl] [] ?_ ?_ pg hpg
    · intro u hu
      rcases List.mem_singleton.mp hu with rfl
      rfl
    · intro x hx
      simp at hx
  · intro hpg
    refine crawlGo_same_host fetch startUrl maxPages fuel [] _ [] ?_ ?_ pg hpg
    · intro u hu
      rcases List.mem_append.mp hu with hu | hu
      · rcases List.mem_map.mp hu with ⟨pth, hpth, rfl⟩
        have hok : pathOkB pth.data = true := by
          have hall : ∀ q ∈ priorityPaths, pathOkB q.data = true := by decide
          exact hall pth hpth
        show netloc (rstripSlash startUrl.data ++ pth.data) = netloc startUrl.data
        exact netloc_rstrip_append pth.data hok startUrl.data
      · rcases List.mem_singleton.mp hu with rfl
        rfl
    · intro x hx
      simp at hx

/-- Witness for C9: a concrete fetcher and seed; the page produced by each
crawler variant is on the seed's host. -/
theorem crawl_same_host_witness :
    netloc (PageContent.mk "http://a.com" "" "").url.data =
        netloc ("http://a.com" : String).data ∧
    netloc (PageContent.mk "http://a.com" "" "").url.data =
        netloc ("http://a.com" : String).data :=
  ⟨(crawl_same_host (fun _ => some ⟨"", "", []⟩) "http://a.com" 15 1
      ⟨"http://a.com", "", ""⟩).1 (by decide),
   (crawl_same_host (fun _ => some ⟨"", "", []⟩) "http://a.com" 15 1
      ⟨"http://a.com", "", ""⟩).2 (by decide)⟩
